import Mathlib

/-!
Verification of `WikiCrawler.py` against its specification.

The program discovers a path between two pages of a lazily revealed link
graph.  Its pieces, embedded here one by one:

* `shortest_path` — the BFS path reconstruction over the adjacency map
  `self._graph` (a Python `defaultdict(set)`; keyed by URL strings).
* `_flatten` — flattening of the nested path lists that BFS builds.
* `_prioritize_by_keyword` — keyword ranking of extracted links.
* `_process_links` — edge recording / frontier feeding for one page.
* the single-worker (`concurrent=1`) crawl loop of `_worker` / `_first`,
  embedded as a deterministic fuel interpreter, and a labelled small-step
  relation for the multi-worker asyncio execution (one step per segment of
  code between `await` points, which asyncio runs atomically).

Nodes are URL strings (`yarl.URL` values always cross into the graph and
into comparisons via `str`, so string identity is the faithful model; URL
resolution `current.join(href)` is kept abstract as a `join` parameter).
Python `dict` / `set` are modelled as insertion-ordered association lists
and duplicate-free lists, which matches every operation the program uses.
-/

/-- A graph node: the string form of an absolute URL. -/
abbrev Node := String

/-- `self._graph`: a `defaultdict(set)` from node to its out-neighbours,
modelled as an insertion-ordered association list. -/
abbrev Graph := List (Node × List Node)

/-- Dictionary lookup with the `defaultdict` default `∅`:
the neighbour set of `n`, or `[]` when `n` has no entry. -/
def findD : Graph → Node → List Node
  | [], _ => []
  | (k, vs) :: rest, n => if k = n then vs else findD rest n

/-- `str(current) not in self._graph` membership test (`in` on a dict checks
keys and does not create entries). -/
def hasKey : Graph → Node → Bool
  | [], _ => false
  | (k, _) :: rest, n => k = n || hasKey rest n

/-- `self._graph[a].add(b)`: create `a`'s entry if needed and add `b` to its
set (`set.add` is a no-op when `b` is already present). -/
def addEdge : Graph → Node → Node → Graph
  | [], a, b => [(a, [b])]
  | (k, vs) :: rest, a, b =>
      if k = a then (k, if b ∈ vs then vs else vs ++ [b]) :: rest
      else (k, vs) :: addEdge rest a b

/-- A bare `self._graph[n]` read: `defaultdict.__getitem__` returns the
entry and, when absent, *creates* an empty one.  Returns the neighbour list
together with the possibly enlarged graph. -/
def dGet : Graph → Node → List Node × Graph
  | [], n => ([], [(n, [])])
  | (k, vs) :: rest, n =>
      if k = n then (vs, (k, vs) :: rest)
      else
        let r := dGet rest n
        (r.1, (k, vs) :: r.2)

/-- All nodes appearing in some neighbour set of `g`. -/
def targetsOf (g : Graph) : List Node := g.flatMap Prod.snd

/-- The nested lists stored as `dist` values by `shortest_path`:
`[start]` for the root, `[dist[at], next]` for a discovered node. -/
inductive PathV where
  | single (s : Node)
  | cons (p : PathV) (s : Node)
deriving Repr, DecidableEq

/-- `_flatten` applied to a `dist` value: recursively yields the items of
nested lists, leaving strings whole. -/
def flattenPV : PathV → List Node
  | .single s => [s]
  | .cons p s => flattenPV p ++ [s]

/-- The `dist` dictionary of `shortest_path` (insertion-ordered). -/
abbrev DistMap := List (Node × PathV)

/-- `dist` lookup (`dist[n]` / `n in dist`): `some` of the value, or `none`
when the key is absent. -/
def lookupP : DistMap → Node → Option PathV
  | [], _ => none
  | (k, v) :: rest, n => if k = n then some v else lookupP rest n

/-- Length of the recorded path of `n` (0 when `n` has no entry). -/
def dl (dist : DistMap) (n : Node) : Nat :=
  match lookupP dist n with
  | some p => (flattenPV p).length
  | none => 0

/-- The body of `for next_ in self._graph[at]` in `shortest_path`:
each undiscovered neighbour gets `dist[next_] = [dist[at], next_]` and is
appended to the deque (`acc` collects the appended nodes in order).  The
`getD` default is never reached: every dequeued node has a `dist` entry
(Python would raise `KeyError` otherwise). -/
def expandNbrs (at_ : Node) : List Node → DistMap → List Node → DistMap × List Node
  | [], dist, acc => (dist, acc)
  | m :: rest, dist, acc =>
      if (lookupP dist m).isSome then expandNbrs at_ rest dist acc
      else
        expandNbrs at_ rest
          (dist ++ [(m, PathV.cons ((lookupP dist at_).getD (PathV.single at_)) m)])
          (acc ++ [m])

/-- The `while len(q)` loop of `shortest_path`.  The fuel argument only
makes the recursion structural; `bfsFuel` below always suffices (each
iteration pops one deque entry, and entries are pushed only when a new node
enters `dist`, which can happen at most once per node of the graph). -/
def bfsLoop : Nat → Graph → List Node → DistMap → Graph × DistMap
  | 0, g, _, dist => (g, dist)
  | _ + 1, g, [], dist => (g, dist)
  | fuel + 1, g, a :: q, dist =>
      let r := dGet g a
      let e := expandNbrs a r.1 dist []
      bfsLoop fuel r.2 (q ++ e.2) e.1

/-- Sufficient fuel for `bfsLoop` on graph `g` started from `s`. -/
def bfsFuel (g : Graph) (s : Node) : Nat :=
  1 + 2 * (s :: targetsOf g).toFinset.card

/-- `WikiCrawler.shortest_path`.  Returns the flattened path for `target`
(`[]` when `dist.get(target)` is `None`) together with the graph as it
stands after the loop — the `defaultdict` reads `self._graph[at]` may have
created empty entries. -/
def shortest_path (g : Graph) (start target : Node) : List Node × Graph :=
  let r := bfsLoop (bfsFuel g start) g [start] [(start, PathV.single start)]
  ((match lookupP r.2 target with
    | some p => flattenPV p
    | none => []), r.1)

/-- An anchor tag as the link extractor hands it to the core:
its visible text (`link.text`) and its `href` attribute. -/
structure Link where
  text : String
  href : String
deriving Repr, DecidableEq

/-- `str.lower()` (ASCII model; the program's keyword examples are ASCII). -/
def lowerStr (s : String) : String := ⟨s.data.map Char.toLower⟩

/-- Does `needle` occur at the start of `hay`? -/
def chStarts : List Char → List Char → Bool
  | [], _ => true
  | _ :: _, [] => false
  | a :: as, b :: bs => a == b && chStarts as bs

/-- Python's substring test `needle in hay` on strings. -/
def chHas (needle : List Char) : List Char → Bool
  | [] => chStarts needle []
  | b :: bs => chStarts needle (b :: bs) || chHas needle bs

/-- `word in text` for strings. -/
def strHas (needle hay : String) : Bool := chHas needle.data hay.data

/-- The `for index, word in enumerate([kw.lower() for kw in keywords])`
scan of `_prioritize_by_keyword`: the index of the first keyword found in
the lowered text or in the lowered href, starting the count at `i`. -/
def kwScan (text hrefLower : String) : List String → Nat → Option Nat
  | [], _ => none
  | w :: rest, i =>
      if strHas (lowerStr w) text || strHas (lowerStr w) hrefLower then some i
      else kwScan text hrefLower rest (i + 1)

/-- `_prioritize_by_keyword`: one `(priority, href)` pair per link, in link
order; the `for … else` yields `len(keywords)` when no keyword matches.
(`keywords or []` is the identity on the lists the class passes in.) -/
def prioritize_by_keyword (links : List Link) (keywords : List String) :
    List (Nat × String) :=
  links.map fun link =>
    match kwScan (lowerStr link.text) (lowerStr link.href) keywords 0 with
    | some i => (i, link.href)
    | none => (keywords.length, link.href)

/-- Modelled from the spec: the priority the LinkPrioritizer contract
assigns to one link — "the first matching keyword's index becomes the
priority; if none match, priority = keyword-list length", scanning
keywords in list order, case-insensitively, against the link's visible
text and against its href. -/
def specPriority (keywords : List String) (link : Link) : Nat :=
  match keywords.findIdx? (fun w =>
      strHas (lowerStr w) (lowerStr link.text) ||
      strHas (lowerStr w) (lowerStr link.href)) with
  | some i => i
  | none => keywords.length

/-- The `for priority, url in _prioritize_by_keyword(...)` loop of
`_process_links`, over the already prioritized pairs: resolve the href
against `current`, record the edge, and either stop on the target (setting
the found flag — `self._target_found.set()`) or enqueue `(priority, url)`.
The frontier is modelled as the list of queued entries. -/
def plGo (join : Node → Node → Node) (tgt cur : Node) :
    List (Nat × String) → Graph → List (Nat × Node) → Graph × List (Nat × Node) × Bool
  | [], g, q => (g, q, false)
  | (p, href) :: rest, g, q =>
      let url := join cur href
      let g' := addEdge g cur url
      if url = tgt then (g', q, true)
      else plGo join tgt cur rest g' (q ++ [(p, url)])

/-- `WikiCrawler._process_links`: returns the graph, the frontier and
whether `self._target_found` was set. -/
def process_links (join : Node → Node → Node) (tgt : Node) (links : List Link)
    (keywords : List String) (cur : Node) (g : Graph) (q : List (Nat × Node)) :
    Graph × List (Nat × Node) × Bool :=
  plGo join tgt cur (prioritize_by_keyword links keywords) g q

/-- Lexicographic order on URL strings by character, as Python compares
strings (code point by code point, a strict prefix sorting first). -/
def chLe : List Char → List Char → Bool
  | [], _ => true
  | _ :: _, [] => false
  | a :: as, b :: bs => if a = b then chLe as bs else decide (a < b)

/-- `asyncio.PriorityQueue` order: `heapq` pops the smallest
`(priority, url)` tuple (`yarl.URL` compares by its string form). -/
def entLe (a b : Nat × Node) : Bool :=
  decide (a.1 < b.1) || (decide (a.1 = b.1) && chLe a.2.data b.2.data)

/-- Remove and return the smallest entry of the frontier (`queue.get()`
when the queue is non-empty); `none` models a `get` that blocks. -/
def popMin : List (Nat × Node) → Option ((Nat × Node) × List (Nat × Node))
  | [] => none
  | e :: rest =>
      match popMin rest with
      | none => some (e, [])
      | some (m, rest') => if entLe e m then some (e, rest) else some (m, e :: rest')

/-- The crawl construction data plus the two external collaborators:
`fetch` stands for `session.get` + `_get_article_links` (`none` when the
response is not `text/html`), `join` for `yarl`'s `current.join(href)`. -/
structure CrawlCfg where
  start : Node
  target : Node
  keywords : List String
  join : Node → Node → Node
  fetch : Node → Option (List Link)

/-- The mutable state shared by `_worker` iterations:
`self._target_found`, `self._queue`, `self._graph`. -/
structure LoopSt where
  flag : Bool
  queue : List (Nat × Node)
  graph : Graph
deriving Repr

/-- The `while not self._target_found.is_set()` loop of `_worker`, run with
`concurrent=1`: there is a single worker and no other producer, so a `get`
on an empty queue blocks forever.  Returns the state at exit paired with
`true` when the loop exited, and the state at the blocking (or fuel-out)
point paired with `false` otherwise. -/
def workerLoop (cfg : CrawlCfg) : Nat → LoopSt → LoopSt × Bool
  | 0, st => (st, false)
  | fuel + 1, st =>
      if st.flag then (st, true)
      else
        match popMin st.queue with
        | none => (st, false)
        | some ((_, cur), q') =>
            if hasKey st.graph cur then workerLoop cfg fuel ⟨st.flag, q', st.graph⟩
            else
              match cfg.fetch cur with
              | none => workerLoop cfg fuel ⟨st.flag, q', st.graph⟩
              | some links =>
                  let r := process_links cfg.join cfg.target links cfg.keywords cur st.graph q'
                  workerLoop cfg fuel ⟨st.flag || r.2.2, r.2.1, r.1⟩

/-- What `__call__` = `run_until_complete(_first)` + `shortest_path`
produces, with the intermediate state kept observable. -/
structure CrawlResult where
  terminated : Bool
  workersLaunched : Bool
  crawlGraph : Graph
  crawlQueue : List (Nat × Node)
  path : List Node
  finalGraph : Graph
deriving Repr

/-- `WikiCrawler.__call__` (the `findPath` entry point) at `concurrent=1`:
`_first` fetches the start page — returning at once when it is not HTML —
otherwise processes its links synchronously and then runs the worker.
`terminated = false` means `run_until_complete` never returns (the worker
blocked on an empty queue, `path` then being unreachable output). -/
def findPath (cfg : CrawlCfg) (fuel : Nat) : CrawlResult :=
  match cfg.fetch cfg.start with
  | none =>
      let r := shortest_path [] cfg.start cfg.target
      ⟨true, false, [], [], r.1, r.2⟩
  | some links =>
      let p := process_links cfg.join cfg.target links cfg.keywords cfg.start [] []
      let w := workerLoop cfg fuel ⟨p.2.2, p.2.1, p.1⟩
      if w.2 then
        let r := shortest_path w.1.graph cfg.start cfg.target
        ⟨true, true, w.1.graph, w.1.queue, r.1, r.2⟩
      else ⟨false, true, w.1.graph, w.1.queue, [], w.1.graph⟩

/-- Control state of one worker task, by segments between `await` points
(asyncio runs the code between two `await`s of a task atomically):
`loopHead` is the top of the `while` loop, `waiting` a `queue.get()`
suspended on an empty queue, `fetching` an outstanding page fetch,
`processing` the remaining prioritized links of the current page (each
`queue.put` is an `await`, so links are processed one step at a time),
`done` a worker whose loop has exited. -/
inductive WStat where
  | loopHead
  | waiting
  | fetching (current : Node)
  | processing (current : Node) (rest : List (Nat × String))
  | done
deriving Repr, DecidableEq

/-- Shared state of the multi-worker execution. -/
structure MState where
  flag : Bool
  queue : List (Nat × Node)
  graph : Graph
  workers : List WStat
deriving Repr

/-- Step observations: `beginDequeue w` — worker `w` starts a new
`queue.get()` from the loop head; `recordEdge w a b` — worker `w` records
the edge `a → b` in the graph; `tau w` — any other step of worker `w`. -/
inductive SLabel where
  | beginDequeue (w : Nat)
  | recordEdge (w : Nat) (src dst : Node)
  | tau (w : Nat)
deriving Repr, DecidableEq

/-- One atomic scheduling step of the worker pool.  Each rule is one
segment of `_worker` / `_process_links` between `await` points; in
particular the loop-head check `while not self._target_found.is_set()` and
the start of `self._queue.get()` are one segment, and recording an edge,
comparing it with the target and setting `self._target_found` are one
segment (no `await` separates them in the source). -/
inductive MStep (cfg : CrawlCfg) : MState → SLabel → MState → Prop where
  | exit (s : MState) (i : Nat) :
      s.workers.get? i = some .loopHead → s.flag = true →
      MStep cfg s (.tau i) { s with workers := s.workers.set i .done }
  | dequeueHit (s : MState) (i : Nat) (pr : Nat) (n : Node) (q' : List (Nat × Node)) :
      s.workers.get? i = some .loopHead → s.flag = false →
      popMin s.queue = some ((pr, n), q') → hasKey s.graph n = true →
      MStep cfg s (.beginDequeue i)
        { s with queue := q', workers := s.workers.set i .loopHead }
  | dequeueMiss (s : MState) (i : Nat) (pr : Nat) (n : Node) (q' : List (Nat × Node)) :
      s.workers.get? i = some .loopHead → s.flag = false →
      popMin s.queue = some ((pr, n), q') → hasKey s.graph n = false →
      MStep cfg s (.beginDequeue i)
        { s with queue := q', workers := s.workers.set i (.fetching n) }
  | dequeueWait (s : MState) (i : Nat) :
      s.workers.get? i = some .loopHead → s.flag = false → s.queue = [] →
      MStep cfg s (.beginDequeue i) { s with workers := s.workers.set i .waiting }
  | wakeHit (s : MState) (i : Nat) (pr : Nat) (n : Node) (q' : List (Nat × Node)) :
      s.workers.get? i = some .waiting →
      popMin s.queue = some ((pr, n), q') → hasKey s.graph n = true →
      MStep cfg s (.tau i)
        { s with queue := q', workers := s.workers.set i .loopHead }
  | wakeMiss (s : MState) (i : Nat) (pr : Nat) (n : Node) (q' : List (Nat × Node)) :
      s.workers.get? i = some .waiting →
      popMin s.queue = some ((pr, n), q') → hasKey s.graph n = false →
      MStep cfg s (.tau i)
        { s with queue := q', workers := s.workers.set i (.fetching n) }
  | fetchOk (s : MState) (i : Nat) (n : Node) (links : List Link) :
      s.workers.get? i = some (.fetching n) → cfg.fetch n = some links →
      MStep cfg s (.tau i)
        { s with workers :=
            s.workers.set i (.processing n (prioritize_by_keyword links cfg.keywords)) }
  | fetchFail (s : MState) (i : Nat) (n : Node) :
      s.workers.get? i = some (.fetching n) → cfg.fetch n = none →
      MStep cfg s (.tau i) { s with workers := s.workers.set i .loopHead }
  | linkHitTarget (s : MState) (i : Nat) (n : Node) (pr : Nat) (href : String)
      (rest : List (Nat × String)) :
      s.workers.get? i = some (.processing n ((pr, href) :: rest)) →
      cfg.join n href = cfg.target →
      MStep cfg s (.recordEdge i n (cfg.join n href))
        { s with graph := addEdge s.graph n (cfg.join n href), flag := true,
                 workers := s.workers.set i .loopHead }
  | linkOther (s : MState) (i : Nat) (n : Node) (pr : Nat) (href : String)
      (rest : List (Nat × String)) :
      s.workers.get? i = some (.processing n ((pr, href) :: rest)) →
      cfg.join n href ≠ cfg.target →
      MStep cfg s (.recordEdge i n (cfg.join n href))
        { s with graph := addEdge s.graph n (cfg.join n href),
                 queue := s.queue ++ [(pr, cfg.join n href)],
                 workers := s.workers.set i (.processing n rest) }
  | linksDone (s : MState) (i : Nat) (n : Node) :
      s.workers.get? i = some (.processing n []) →
      MStep cfg s (.tau i) { s with workers := s.workers.set i .loopHead }

/-- A finite execution: the list of labels of consecutive steps. -/
inductive MTrace (cfg : CrawlCfg) : MState → List SLabel → MState → Prop where
  | nil (s : MState) : MTrace cfg s [] s
  | cons (s s₁ s₂ : MState) (l : SLabel) (ls : List SLabel) :
      MStep cfg s l s₁ → MTrace cfg s₁ ls s₂ → MTrace cfg s (l :: ls) s₂

/-- `b` is recorded as an out-edge of `a` in `g`. -/
def edgeOf (g : Graph) (a b : Node) : Prop := b ∈ findD g a

instance (g : Graph) (a b : Node) : Decidable (edgeOf g a b) :=
  inferInstanceAs (Decidable (b ∈ findD g a))

instance (g : Graph) : DecidableRel (edgeOf g) := fun a b =>
  inferInstanceAs (Decidable (edgeOf g a b))

/-- `p` is a path over `g`'s recorded edges that starts at `s` and ends at
`t` (consecutive elements joined by recorded edges). -/
def isPathFT (g : Graph) (s t : Node) (p : List Node) : Prop :=
  p.head? = some s ∧ p.getLast? = some t ∧ List.Chain' (edgeOf g) p

instance (g : Graph) (s t : Node) (p : List Node) : Decidable (isPathFT g s t p) :=
  inferInstanceAs (Decidable (_ ∧ _ ∧ _))

/-- Record the edges `cur → u` for each `u` in `us`, left to right. -/
def addEdgeList (g : Graph) (cur : Node) (us : List Node) : Graph :=
  us.foldl (fun g u => addEdge g cur u) g

/-- Resolve every prioritized href against the page that contained it. -/
def resolveAll (join : Node → Node → Node) (cur : Node)
    (prs : List (Nat × String)) : List (Nat × Node) :=
  prs.map fun pr => (pr.1, join cur pr.2)

/-- The invariant of the `shortest_path` loop, over the original graph `g0`
and start node `s`: `g` is the current (`defaultdict`-grown) graph, `q` the
deque, `dist` the path dictionary. -/
structure BfsInv (g0 : Graph) (s : Node) (g : Graph) (q : List Node)
    (dist : DistMap) : Prop where
  gsame : ∀ n, findD g n = findD g0 n
  knodup : (dist.map Prod.fst).Nodup
  sentry : lookupP dist s = some (PathV.single s)
  pvalid : ∀ n p, lookupP dist n = some p → isPathFT g0 s n (flattenPV p)
  ksub : ∀ n, (lookupP dist n).isSome → n ∈ s :: targetsOf g0
  qsub : ∀ a ∈ q, (lookupP dist a).isSome
  qnodup : q.Nodup
  closure : ∀ n, (lookupP dist n).isSome → n ∉ q → ∀ m ∈ findD g0 n,
      (lookupP dist m).isSome ∧ dl dist m ≤ dl dist n + 1
  sorted : List.Pairwise (fun x y => dl dist x ≤ dl dist y) q
  hbound : ∀ a, q.head? = some a → ∀ m, (lookupP dist m).isSome →
      dl dist m ≤ dl dist a + 1

/-- The end-to-end fixture of the spec: the start page links to `a` and
`b`, `a`'s page links only to the target, `b`'s page has no links. -/
def cfgEndToEnd : CrawlCfg where
  start := "s"
  target := "t"
  keywords := []
  join := fun _ h => h
  fetch := fun n =>
    if n = "s" then some [⟨"A", "a"⟩, ⟨"B", "b"⟩]
    else if n = "a" then some [⟨"T", "t"⟩]
    else if n = "b" then some []
    else none

/-- A crawl whose frontier empties without the target being found: the
start page links only to `a`, whose page has no links at all. -/
def cfgDrained : CrawlCfg where
  start := "s"
  target := "t"
  keywords := []
  join := fun _ h => h
  fetch := fun n =>
    if n = "s" then some [⟨"A", "a"⟩]
    else if n = "a" then some []
    else none

/-- A crawl whose start page is not fetchable and whose target equals its
start. -/
def cfgStartFail : CrawlCfg where
  start := "s"
  target := "s"
  keywords := []
  join := fun _ h => h
  fetch := fun _ => none

/-- A crawl whose start page is not fetchable, with distinct start and
target. -/
def cfgStartFail2 : CrawlCfg where
  start := "s"
  target := "t"
  keywords := []
  join := fun _ h => h
  fetch := fun _ => none

theorem lookupP_append (d₁ d₂ : DistMap) (n : Node) :
    lookupP (d₁ ++ d₂) n = (lookupP d₁ n).or (lookupP d₂ n) := by
  induction d₁ with
  | nil => simp [lookupP]
  | cons e rest ih =>
      obtain ⟨k, v⟩ := e
      by_cases h : k = n <;> simp [lookupP, h, ih]

theorem lookupP_isSome_iff (d : DistMap) (n : Node) :
    (lookupP d n).isSome ↔ n ∈ d.map Prod.fst := by
  induction d with
  | nil => simp [lookupP]
  | cons e rest ih =>
      obtain ⟨k, v⟩ := e
      by_cases h : k = n
      · simp [lookupP, h]
      · simp only [lookupP, if_neg h, List.map_cons, List.mem_cons, ih]
        constructor
        · exact Or.inr
        · rintro (rfl | hm)
          · exact absurd rfl h
          · exact hm

theorem lookupP_single (n m : Node) (p : PathV) :
    lookupP [(m, p)] n = if m = n then some p else none := rfl

theorem findD_dGet_fst (g : Graph) (n : Node) : (dGet g n).1 = findD g n := by
  induction g with
  | nil => simp [dGet, findD]
  | cons e rest ih =>
      obtain ⟨k, vs⟩ := e
      by_cases h : k = n <;> simp [dGet, findD, h, ih]

theorem findD_dGet_snd (g : Graph) (n m : Node) :
    findD (dGet g n).2 m = findD g m := by
  induction g with
  | nil =>
      by_cases h : n = m <;> simp [dGet, findD, h]
  | cons e rest ih =>
      obtain ⟨k, vs⟩ := e
      by_cases h : k = n
      · simp [dGet, h]
      · simp only [dGet, if_neg h]
        by_cases h2 : k = m <;> simp [findD, h2, ih]

theorem mem_findD_targetsOf (g : Graph) (n m : Node) (h : m ∈ findD g n) :
    m ∈ targetsOf g := by
  induction g with
  | nil => simp [findD] at h
  | cons e rest ih =>
      obtain ⟨k, vs⟩ := e
      simp only [targetsOf, List.flatMap_cons]
      by_cases hk : k = n
      · simp [findD, hk] at h
        exact List.mem_append_left _ h
      · simp [findD, hk] at h
        exact List.mem_append_right _ (ih h)

theorem dl_eq_of_lookup {d : DistMap} {n : Node} {p : PathV}
    (h : lookupP d n = some p) : dl d n = (flattenPV p).length := by
  simp [dl, h]

theorem dl_append_of_isSome {d₁ : DistMap} {n : Node}
    (h : (lookupP d₁ n).isSome) (d₂ : DistMap) : dl (d₁ ++ d₂) n = dl d₁ n := by
  obtain ⟨p, hp⟩ := Option.isSome_iff_exists.mp h
  simp [dl, lookupP_append, hp]

theorem kwScan_eq_findIdx (text hrefLower : String) (ks : List String) (i : Nat) :
    kwScan text hrefLower ks i =
      List.findIdx?
        (fun w => strHas (lowerStr w) text || strHas (lowerStr w) hrefLower) ks i := by
  induction ks generalizing i with
  | nil => simp [kwScan]
  | cons w rest ih =>
      simp only [kwScan, List.findIdx?_cons]
      split <;> simp_all

/-- C9: `_prioritize_by_keyword` yields one `(priority, href)` pair per
input link, in input order; the priority is the index of the first keyword
(scanned in list order, case-insensitively) occurring in the link's text or
href, or the keyword-list length when none matches; an empty keyword list
gives priority 0 to every link; and the spec's worked example yields the
priorities `[2, 0, 2]`. -/
theorem prioritize_by_keyword_spec (links : List Link) (keywords : List String) :
    prioritize_by_keyword links keywords
        = links.map (fun l => (specPriority keywords l, l.href))
      ∧ (∀ l : Link, specPriority [] l = 0)
      ∧ prioritize_by_keyword
          [⟨"Chemistry", "/wiki/Chem"⟩, ⟨"Physics today", "/wiki/Phys"⟩,
            ⟨"Unrelated", "/wiki/X"⟩] ["physics", "math"]
        = [(2, "/wiki/Chem"), (0, "/wiki/Phys"), (2, "/wiki/X")] := by
  refine ⟨?_, fun _ => rfl, by rfl⟩
  simp only [prioritize_by_keyword, specPriority, kwScan_eq_findIdx]
  congr 1
  funext link
  cases List.findIdx? _ _ <;> rfl

theorem plGo_spec (join : Node → Node → Node) (tgt cur : Node) :
    ∀ (prs : List (Nat × String)) (g : Graph) (q : List (Nat × Node)),
    plGo join tgt cur prs g q =
      (addEdgeList g cur
        ((((resolveAll join cur prs).takeWhile (fun pr => pr.2 != tgt))
            ++ ((resolveAll join cur prs).dropWhile (fun pr => pr.2 != tgt)).take 1).map
          Prod.snd),
       q ++ (resolveAll join cur prs).takeWhile (fun pr => pr.2 != tgt),
       !((resolveAll join cur prs).dropWhile (fun pr => pr.2 != tgt)).isEmpty) := by
  intro prs
  induction prs with
  | nil => intro g q; simp [plGo, resolveAll, addEdgeList]
  | cons pr rest ih =>
      intro g q
      obtain ⟨p, href⟩ := pr
      by_cases h : join cur href = tgt
      · simp [plGo, h, resolveAll, List.takeWhile_cons, List.dropWhile_cons,
          addEdgeList]
      · simp only [plGo, if_neg h]
        rw [ih]
        have hcond : ((join cur href) != tgt) = true := by simp [h]
        simp only [resolveAll, List.map_cons, List.takeWhile_cons, List.dropWhile_cons,
          hcond, if_true]
        simp [addEdgeList, List.append_assoc]

/-- C3: `_process_links` handles the prioritized links in input order:
walking the resolved links, every link before the first target hit has its
edge recorded and is enqueued; a link resolving to the target still has its
edge recorded, sets `self._target_found` and stops the loop, so later links
are neither recorded nor enqueued; when no link resolves to the target all
are recorded and enqueued and the flag stays unset; and an enqueued entry
is never the target. -/
theorem process_links_spec (join : Node → Node → Node) (tgt : Node)
    (links : List Link) (keywords : List String) (cur : Node) (g : Graph)
    (q : List (Nat × Node)) :
    process_links join tgt links keywords cur g q =
      (addEdgeList g cur
        ((((resolveAll join cur (prioritize_by_keyword links keywords)).takeWhile
              (fun pr => pr.2 != tgt))
            ++ ((resolveAll join cur (prioritize_by_keyword links keywords)).dropWhile
              (fun pr => pr.2 != tgt)).take 1).map Prod.snd),
       q ++ (resolveAll join cur (prioritize_by_keyword links keywords)).takeWhile
              (fun pr => pr.2 != tgt),
       !((resolveAll join cur (prioritize_by_keyword links keywords)).dropWhile
              (fun pr => pr.2 != tgt)).isEmpty)
    ∧ ∀ pr ∈ q ++ (resolveAll join cur (prioritize_by_keyword links keywords)).takeWhile
              (fun pr => pr.2 != tgt), pr ∈ q ∨ pr.2 ≠ tgt := by
  refine ⟨plGo_spec join tgt cur _ g q, ?_⟩
  intro pr hpr
  rcases List.mem_append.mp hpr with hq | htw
  · exact Or.inl hq
  · right
    have := List.mem_takeWhile_imp htw
    simpa using this

theorem process_links_spec_witness :
    ((0, "a") : Nat × Node) ∈ ([] : List (Nat × Node)) ∨
      ((0, "a") : Nat × Node).2 ≠ "t" :=
  (process_links_spec (fun _ h => h) "t" [⟨"A", "a"⟩] [] "s" [] []).2 (0, "a")
    (by decide)

theorem hasKey_addEdge_self (g : Graph) (a b : Node) :
    hasKey (addEdge g a b) a = true := by
  induction g with
  | nil => simp [addEdge, hasKey]
  | cons e rest ih =>
      obtain ⟨k, vs⟩ := e
      by_cases h : k = a <;> simp [addEdge, hasKey, h, ih]

theorem hasKey_addEdge_mono (g : Graph) (a b n : Node) (h : hasKey g n = true) :
    hasKey (addEdge g a b) n = true := by
  induction g with
  | nil => simp [hasKey] at h
  | cons e rest ih =>
      obtain ⟨k, vs⟩ := e
      by_cases hk : k = a
      · simp only [hasKey] at h
        simp [addEdge, hasKey, hk, h]
        rcases Bool.or_eq_true_iff.mp h with h1 | h2
        · exact Or.inl (by simpa [hk] using h1)
        · exact Or.inr h2
      · simp only [hasKey] at h
        rcases Bool.or_eq_true_iff.mp h with h1 | h2
        · simp [addEdge, hasKey, hk, h1]
        · simp [addEdge, hasKey, hk, ih h2]

theorem plGo_hasKey (join : Node → Node → Node) (tgt cur : Node) :
    ∀ (prs : List (Nat × String)) (g : Graph) (q : List (Nat × Node)),
    hasKey g cur = true → hasKey (plGo join tgt cur prs g q).1 cur = true := by
  intro prs
  induction prs with
  | nil => intro g q h; exact h
  | cons pr rest ih =>
      intro g q h
      obtain ⟨p, href⟩ := pr
      simp only [plGo]
      by_cases ht : join cur href = tgt
      · simp [ht, hasKey_addEdge_mono _ _ _ _ h]
      · rw [if_neg ht]
        exact ih _ _ (hasKey_addEdge_mono _ _ _ _ h)

theorem plGo_cons_hasKey (join : Node → Node → Node) (tgt cur : Node)
    (p : Nat) (href : String) (prs : List (Nat × String)) (g : Graph)
    (q : List (Nat × Node)) :
    hasKey (plGo join tgt cur ((p, href) :: prs) g q).1 cur = true := by
  simp only [plGo]
  by_cases ht : join cur href = tgt
  · simp [ht, hasKey_addEdge_self]
  · rw [if_neg ht]
    exact plGo_hasKey join tgt cur prs _ _ (hasKey_addEdge_self g cur _)

/-- C8 (amended): after `_process_links` finishes for `cur`, the graph has
an entry for `cur` exactly when the page had at least one link (the entry
is a side effect of recording the first edge) or it already had one; in
particular a page with no links leaves no entry behind, so a later dequeue
of the same node is fetched and expanded again instead of being skipped. -/
theorem process_links_marks (join : Node → Node → Node) (tgt : Node)
    (links : List Link) (keywords : List String) (cur : Node) (g : Graph)
    (q : List (Nat × Node)) :
    hasKey (process_links join tgt links keywords cur g q).1 cur
      = (!links.isEmpty || hasKey g cur) := by
  cases links with
  | nil => simp [process_links, prioritize_by_keyword, plGo]
  | cons l ls =>
      simp only [process_links, prioritize_by_keyword, List.map_cons,
        List.isEmpty_cons, Bool.not_false, Bool.true_or]
      exact plGo_cons_hasKey join tgt cur _ _ _ g q

/-- C1: on the spec's fixture (start links to `a` and `b`, `a` links only
to the target, `b` has no links), the single-worker crawl terminates and
`findPath` returns exactly `[start, a, target]`. -/
theorem findPath_end_to_end :
    (findPath cfgEndToEnd 4).terminated = true ∧
      (findPath cfgEndToEnd 4).path = ["s", "a", "t"] :=
  ⟨rfl, rfl⟩

/-- C6 (refuting theorem): on a crawl whose frontier drains without the
target being found, the worker blocks forever in `self._queue.get()` —
`run_until_complete` never returns, whatever the fuel. -/
theorem findPath_drained_blocks :
    ∀ fuel, (findPath cfgDrained fuel).terminated = false := by
  intro fuel
  match fuel with
  | 0 => rfl
  | 1 => rfl
  | _ + 2 => rfl

/-- C8 (counterexample): in that same drained run, node `a`'s page is
fetched successfully (an HTML page with zero links) and its links are fully
processed, yet the graph afterwards has no entry for `a`. -/
theorem expansion_without_entry :
    cfgDrained.fetch "a" = some [] ∧
      (findPath cfgDrained 10).crawlGraph = [("s", ["a"])] ∧
      hasKey (findPath cfgDrained 10).crawlGraph "a" = false :=
  ⟨rfl, rfl, rfl⟩

theorem bfsLoop_three (s : Node) :
    bfsLoop 3 [] [s] [(s, PathV.single s)] = ([(s, [])], [(s, PathV.single s)]) := rfl

theorem shortest_path_empty (s t : Node) :
    shortest_path [] s t = ((if s = t then [s] else []), [(s, [])]) := by
  have h3 : bfsFuel [] s = 3 := by simp [bfsFuel, targetsOf]
  simp only [shortest_path, h3, bfsLoop_three, lookupP]
  by_cases h : s = t <;> simp [h, flattenPV]

/-- C4 (amended): when the start page is not fetchable, `_first` returns at
once — no worker task is created, no edge is recorded and nothing is
enqueued — and `findPath` hands the caller `shortest_path` over the empty
graph: the empty sequence whenever start ≠ target, but `[start]` when the
start and target nodes coincide. -/
theorem findPath_start_not_fetchable (cfg : CrawlCfg) (fuel : Nat)
    (h : cfg.fetch cfg.start = none) :
    (findPath cfg fuel).terminated = true ∧
    (findPath cfg fuel).workersLaunched = false ∧
    (findPath cfg fuel).crawlGraph = [] ∧
    (findPath cfg fuel).crawlQueue = [] ∧
    (findPath cfg fuel).path = (if cfg.start = cfg.target then [cfg.start] else []) := by
  have hf : findPath cfg fuel = ⟨true, false, [], [],
      (shortest_path [] cfg.start cfg.target).1,
      (shortest_path [] cfg.start cfg.target).2⟩ := by
    simp only [findPath, h]
  rw [hf]
  refine ⟨rfl, rfl, rfl, rfl, ?_⟩
  rw [shortest_path_empty]

theorem findPath_start_not_fetchable_witness :
    cfgStartFail2.fetch cfgStartFail2.start = none ∧
      (findPath cfgStartFail2 0).path = [] := by
  refine ⟨rfl, ?_⟩
  have h := findPath_start_not_fetchable cfgStartFail2 0 rfl
  rw [h.2.2.2.2]
  rfl

/-- C4 (counterexample): start = target = `"s"` with an unfetchable start
page — the crawl aborts immediately, yet `findPath` returns `["s"]` rather
than an empty sequence. -/
theorem findPath_start_fail_nonempty :
    cfgStartFail.fetch cfgStartFail.start = none ∧
      (findPath cfgStartFail 1).path = ["s"] ∧
      (findPath cfgStartFail 1).path ≠ [] :=
  ⟨rfl, rfl, by decide⟩

theorem mstep_flag_mono {cfg : CrawlCfg} {s s' : MState} {l : SLabel}
    (h : MStep cfg s l s') (hs : s.flag = true) : s'.flag = true := by
  cases h <;> simp_all

theorem mstep_dequeue_needs_unset {cfg : CrawlCfg} {s s' : MState} {i : Nat}
    (h : MStep cfg s (.beginDequeue i) s') : s.flag = false := by
  cases h <;> assumption

theorem mstep_record_target_sets {cfg : CrawlCfg} {s s' : MState} {i : Nat}
    {a b : Node} (h : MStep cfg s (.recordEdge i a b) s') (hb : b = cfg.target) :
    s'.flag = true := by
  cases h <;> simp_all

theorem mtrace_no_dequeue {cfg : CrawlCfg} {s s' : MState} {ls : List SLabel}
    (h : MTrace cfg s ls s') (hs : s.flag = true) :
    ∀ j, SLabel.beginDequeue j ∉ ls := by
  induction h with
  | nil => simp
  | cons s s₁ s₂ l ls hstep htrace ih =>
      intro j hmem
      rcases List.mem_cons.mp hmem with rfl | hmem'
      · rw [mstep_dequeue_needs_unset hstep] at hs
        exact Bool.false_ne_true hs
      · exact ih (mstep_flag_mono hstep hs) j hmem'

/-- C5: recording an edge to the target and setting `self._target_found`
are one atomic step, so immediately after a worker records such an edge —
before it does anything further — the flag is set; the flag is never
cleared; and in every continuation of the execution no worker (waiting
ones included) begins a new frontier dequeue, because the loop-head check
and the start of `queue.get()` are likewise one atomic segment. -/
theorem target_edge_stops_dequeues (cfg : CrawlCfg) (s s₁ s₂ : MState)
    (i : Nat) (a : Node) (ls : List SLabel)
    (hstep : MStep cfg s (.recordEdge i a cfg.target) s₁)
    (htrace : MTrace cfg s₁ ls s₂) :
    s₁.flag = true ∧ ∀ j, SLabel.beginDequeue j ∉ ls := by
  have hflag := mstep_record_target_sets hstep rfl
  exact ⟨hflag, mtrace_no_dequeue htrace hflag⟩

theorem target_edge_stops_dequeues_witness :
    ({ flag := true, queue := [], graph := addEdge [] "a" "t",
       workers := [WStat.loopHead] } : MState).flag = true ∧
      ∀ j, SLabel.beginDequeue j ∉ ([] : List SLabel) :=
  target_edge_stops_dequeues cfgEndToEnd
    ⟨false, [], [], [.processing "a" [(0, "t")]]⟩ _ _ 0 "a" []
    (MStep.linkHitTarget _ 0 "a" 0 "t" [] rfl rfl)
    (MTrace.nil _)

theorem lookupP_map_of_mem {Δ : List Node} {f : Node → PathV} {n : Node}
    (h : n ∈ Δ) : lookupP (Δ.map fun m => (m, f m)) n = some (f n) := by
  induction Δ with
  | nil => simp at h
  | cons a rest ih =>
      by_cases ha : a = n
      · subst ha
        simp [lookupP]
      · rcases List.mem_cons.mp h with rfl | hr
        · exact absurd rfl ha
        · simp [lookupP, ha, ih hr]

theorem lookupP_or_none {d₁ d₂ : DistMap} {n : Node}
    (h : lookupP (d₁ ++ d₂) n = none) : lookupP d₁ n = none := by
  rw [lookupP_append] at h
  cases hd : lookupP d₁ n with
  | none => rfl
  | some p => rw [hd] at h; simp [Option.or] at h

theorem expandNbrs_spec (at_ : Node) (pa : PathV) :
    ∀ (ns : List Node) (dist : DistMap) (acc : List Node),
    lookupP dist at_ = some pa →
    ∃ Δ : List Node,
      expandNbrs at_ ns dist acc =
        (dist ++ Δ.map (fun m => (m, PathV.cons pa m)), acc ++ Δ) ∧
      Δ.Nodup ∧
      (∀ m ∈ Δ, m ∈ ns ∧ lookupP dist m = none) ∧
      (∀ m ∈ ns, lookupP dist m = none → m ∈ Δ) := by
  intro ns
  induction ns with
  | nil =>
      intro dist acc _
      exact ⟨[], by simp [expandNbrs], by simp, by simp, by simp⟩
  | cons m rest ih =>
      intro dist acc hpa
      by_cases hm : (lookupP dist m).isSome
      · obtain ⟨Δ, heq, hnd, hmem, hcov⟩ := ih dist acc hpa
        refine ⟨Δ, ?_, hnd, ?_, ?_⟩
        · simpa [expandNbrs, hm] using heq
        · exact fun x hx => ⟨List.mem_cons_of_mem m (hmem x hx).1, (hmem x hx).2⟩
        · intro x hx hnone
          rcases List.mem_cons.mp hx with rfl | hr
          · rw [hnone] at hm; simp at hm
          · exact hcov x hr hnone
      · rw [Option.not_isSome_iff_eq_none] at hm
        have hdist1 : lookupP (dist ++ [(m, PathV.cons pa m)]) at_ = some pa := by
          rw [lookupP_append, hpa]; rfl
        obtain ⟨Δ', heq, hnd, hmem, hcov⟩ :=
          ih (dist ++ [(m, PathV.cons pa m)]) (acc ++ [m]) hdist1
        have hm1 : lookupP (dist ++ [(m, PathV.cons pa m)]) m
            = some (PathV.cons pa m) := by
          rw [lookupP_append, hm]
          simp [lookupP_single]
        refine ⟨m :: Δ', ?_, ?_, ?_, ?_⟩
        · have hstep : expandNbrs at_ (m :: rest) dist acc =
              expandNbrs at_ rest (dist ++ [(m, PathV.cons pa m)]) (acc ++ [m]) := by
            simp [expandNbrs, hm, hpa]
          rw [hstep, heq]
          simp [List.append_assoc]
        · refine List.nodup_cons.mpr ⟨?_, hnd⟩
          intro hmem'
          have := (hmem m hmem').2
          rw [hm1] at this
          exact Option.some_ne_none _ this
        · intro x hx
          rcases List.mem_cons.mp hx with rfl | hr
          · exact ⟨List.mem_cons_self _ _, hm⟩
          · exact ⟨List.mem_cons_of_mem m (hmem x hr).1,
              lookupP_or_none (hmem x hr).2⟩
        · intro x hx hnone
          rcases List.mem_cons.mp hx with rfl | hr
          · exact List.mem_cons_self _ _
          · cases hx1 : lookupP (dist ++ [(m, PathV.cons pa m)]) x with
            | none => exact List.mem_cons_of_mem m (hcov x hr hx1)
            | some p =>
                rw [lookupP_append, hnone] at hx1
                simp only [Option.or] at hx1
                rw [lookupP_single] at hx1
                by_cases hxm : m = x
                · exact hxm ▸ List.mem_cons_self _ _
                · rw [if_neg hxm] at hx1; exact absurd hx1 (Option.noConfusion)

theorem lookupP_map_of_not_mem {Δ : List Node} {f : Node → PathV} {n : Node}
    (h : n ∉ Δ) : lookupP (Δ.map fun m => (m, f m)) n = none := by
  induction Δ with
  | nil => rfl
  | cons a rest ih =>
      have ha : a ≠ n := fun hc => h (hc ▸ List.mem_cons_self a rest)
      simp only [List.map_cons, lookupP, if_neg ha]
      exact ih (fun hc => h (List.mem_cons_of_mem a hc))

theorem lookupP_append_inv {dist : DistMap} {Δ : List Node} {pa : PathV}
    {n : Node} {p : PathV}
    (h : lookupP (dist ++ Δ.map fun m => (m, PathV.cons pa m)) n = some p) :
    lookupP dist n = some p ∨ (n ∈ Δ ∧ p = PathV.cons pa n) := by
  rw [lookupP_append] at h
  cases hd : lookupP dist n with
  | some p' => rw [hd, Option.or_some] at h; exact Or.inl h
  | none =>
      rw [hd, Option.none_or] at h
      by_cases hm : n ∈ Δ
      · rw [lookupP_map_of_mem hm] at h
        exact Or.inr ⟨hm, (Option.some_inj.mp h).symm⟩
      · rw [lookupP_map_of_not_mem hm] at h
        exact absurd h (Option.noConfusion)

theorem lookupP_append_isSome_iff {dist : DistMap} {Δ : List Node} {pa : PathV}
    (n : Node) :
    (lookupP (dist ++ Δ.map fun m => (m, PathV.cons pa m)) n).isSome
      ↔ (lookupP dist n).isSome ∨ n ∈ Δ := by
  rw [lookupP_append]
  cases hd : lookupP dist n with
  | some p' => simp [Option.or_some]
  | none =>
      rw [Option.none_or]
      by_cases hm : n ∈ Δ
      · simp [lookupP_map_of_mem hm, hm]
      · simp [lookupP_map_of_not_mem hm, hm]

theorem keys_length_le {dist : DistMap} {L : List Node}
    (hnodup : (dist.map Prod.fst).Nodup)
    (hsub : ∀ n ∈ dist.map Prod.fst, n ∈ L) :
    dist.length ≤ L.toFinset.card := by
  have h1 : (dist.map Prod.fst).toFinset.card = (dist.map Prod.fst).length :=
    List.toFinset_card_of_nodup hnodup
  have h2 : (dist.map Prod.fst).toFinset ⊆ L.toFinset := by
    intro x hx
    rw [List.mem_toFinset] at hx ⊢
    exact hsub x hx
  have h3 := Finset.card_le_card h2
  rw [h1, List.length_map] at h3
  exact h3

theorem flattenPV_cons_length (pa : PathV) (m : Node) :
    (flattenPV (PathV.cons pa m)).length = (flattenPV pa).length + 1 := by
  simp [flattenPV]

theorem bfs_step (g0 : Graph) (s : Node) (g : Graph) (a : Node) (q' : List Node)
    (dist : DistMap) (pa : PathV) (Δ : List Node)
    (hinv : BfsInv g0 s g (a :: q') dist)
    (hpa : lookupP dist a = some pa)
    (hnd : Δ.Nodup)
    (hmemΔ : ∀ m ∈ Δ, m ∈ findD g0 a ∧ lookupP dist m = none)
    (hcov : ∀ m ∈ findD g0 a, lookupP dist m = none → m ∈ Δ) :
    BfsInv g0 s (dGet g a).2 (q' ++ Δ)
      (dist ++ Δ.map fun m => (m, PathV.cons pa m)) := by
  have hmono : ∀ n p, lookupP dist n = some p →
      lookupP (dist ++ Δ.map fun m => (m, PathV.cons pa m)) n = some p := by
    intro n p hp
    rw [lookupP_append, hp, Option.or_some]
  have hfresh : ∀ m ∈ Δ, lookupP dist m = none := fun m hm => (hmemΔ m hm).2
  have hΔedge : ∀ m ∈ Δ, m ∈ findD g0 a := fun m hm => (hmemΔ m hm).1
  have hnew : ∀ m ∈ Δ, lookupP (dist ++ Δ.map fun m => (m, PathV.cons pa m)) m
      = some (PathV.cons pa m) := by
    intro m hm
    rw [lookupP_append, hfresh m hm, Option.none_or, lookupP_map_of_mem hm]
  have hdl_old : ∀ n, (lookupP dist n).isSome →
      dl (dist ++ Δ.map fun m => (m, PathV.cons pa m)) n = dl dist n :=
    fun n h => dl_append_of_isSome h _
  have hdla : dl dist a = (flattenPV pa).length := dl_eq_of_lookup hpa
  have hdl_new : ∀ m ∈ Δ, dl (dist ++ Δ.map fun m => (m, PathV.cons pa m)) m
      = dl dist a + 1 := by
    intro m hm
    rw [dl_eq_of_lookup (hnew m hm), flattenPV_cons_length, hdla]
  have haP : isPathFT g0 s a (flattenPV pa) := hinv.pvalid a pa hpa
  have hq'sub : ∀ x ∈ q', (lookupP dist x).isSome :=
    fun x hx => hinv.qsub x (List.mem_cons_of_mem a hx)
  have hbnd : ∀ m, (lookupP dist m).isSome → dl dist m ≤ dl dist a + 1 :=
    hinv.hbound a rfl
  have hsorted_tail : ∀ x ∈ q', dl dist a ≤ dl dist x :=
    (List.pairwise_cons.mp hinv.sorted).1
  have hq'Δdisj : ∀ x ∈ q', x ∉ Δ := by
    intro x hx hΔ
    have h1 := hq'sub x hx
    rw [hfresh x hΔ] at h1
    simp at h1
  refine ⟨?_, ?_, ?_, ?_, ?_, ?_, ?_, ?_, ?_, ?_⟩
  · exact fun n => (findD_dGet_snd g a n).trans (hinv.gsame n)
  · have hkeys : (dist ++ Δ.map fun m => (m, PathV.cons pa m)).map Prod.fst
        = dist.map Prod.fst ++ Δ := by
      rw [List.map_append, List.map_map]
      have hid : (Prod.fst ∘ fun m : Node => (m, PathV.cons pa m)) = id := rfl
      rw [hid, List.map_id]
    rw [hkeys, List.nodup_append]
    refine ⟨hinv.knodup, hnd, ?_⟩
    intro x hx hxΔ
    have h1 : (lookupP dist x).isSome := (lookupP_isSome_iff dist x).mpr hx
    rw [hfresh x hxΔ] at h1
    simp at h1
  · exact hmono _ _ hinv.sentry
  · intro n p hp
    rcases lookupP_append_inv hp with hold | ⟨hmem, rfl⟩
    · exact hinv.pvalid n p hold
    · obtain ⟨hhead, hlast, hchain⟩ := haP
      refine ⟨?_, ?_, ?_⟩
      · show (flattenPV pa ++ [n]).head? = some s
        rw [List.head?_append, hhead, Option.or_some]
      · exact List.getLast?_concat _
      · show List.Chain' (edgeOf g0) (flattenPV pa ++ [n])
        refine List.Chain'.append hchain (List.chain'_singleton n) ?_
        intro x hx y hy
        rw [hlast] at hx
        simp only [Option.mem_def, Option.some_inj] at hx
        simp only [List.head?_cons, Option.mem_def, Option.some_inj] at hy
        subst hx
        subst hy
        exact hΔedge n hmem
  · intro n hn
    rcases (lookupP_append_isSome_iff n).mp hn with hold | hΔ
    · exact hinv.ksub n hold
    · exact List.mem_cons_of_mem _ (mem_findD_targetsOf g0 a n (hΔedge n hΔ))
  · intro x hx
    rcases List.mem_append.mp hx with hq | hΔ
    · obtain ⟨p, hp⟩ := Option.isSome_iff_exists.mp (hq'sub x hq)
      rw [hmono x p hp]
      rfl
    · rw [hnew x hΔ]
      rfl
  · exact List.nodup_append.mpr ⟨hinv.qnodup.of_cons, hnd, hq'Δdisj⟩
  · intro n hn hnq m hm
    have hnq' : n ∉ q' := fun h => hnq (List.mem_append_left _ h)
    have hnΔ : n ∉ Δ := fun h => hnq (List.mem_append_right _ h)
    rcases (lookupP_append_isSome_iff n).mp hn with hold | hΔ
    swap
    · exact absurd hΔ hnΔ
    by_cases hna : n = a
    · subst hna
      constructor
      · cases hdm : lookupP dist m with
        | some pm => rw [hmono m pm hdm]; rfl
        | none =>
            have hmΔ := hcov m hm hdm
            rw [hnew m hmΔ]
            rfl
      · rw [hdl_old n hold]
        cases hdm : lookupP dist m with
        | some pm =>
            have h1 : (lookupP dist m).isSome := by rw [hdm]; rfl
            rw [hdl_old m h1]
            exact hbnd m h1
        | none =>
            have hmΔ := hcov m hm hdm
            rw [hdl_new m hmΔ]
    · have hnac : n ∉ a :: q' := by
        intro hc
        rcases List.mem_cons.mp hc with rfl | h
        · exact hna rfl
        · exact hnq' h
      have hcl := hinv.closure n hold hnac m hm
      constructor
      · obtain ⟨pm, hpm⟩ := Option.isSome_iff_exists.mp hcl.1
        rw [hmono m pm hpm]
        rfl
      · rw [hdl_old m hcl.1, hdl_old n hold]
        exact hcl.2
  · rw [List.pairwise_append]
    refine ⟨?_, ?_, ?_⟩
    · refine ((List.pairwise_cons.mp hinv.sorted).2).imp_of_mem ?_
      intro x y hx hy hxy
      rw [hdl_old x (hq'sub x hx), hdl_old y (hq'sub y hy)]
      exact hxy
    · refine List.pairwise_of_forall_mem_list ?_
      intro x hx y hy
      rw [hdl_new x hx, hdl_new y hy]
    · intro x hx y hy
      rw [hdl_old x (hq'sub x hx), hdl_new y hy]
      exact hbnd x (hq'sub x hx)
  · intro b hb m hm
    have hble : dl dist a ≤ dl (dist ++ Δ.map fun m => (m, PathV.cons pa m)) b := by
      cases q' with
      | cons c q'' =>
          have hbc : c = b := by simpa using hb
          rw [← hbc, hdl_old c (hq'sub c (List.mem_cons_self c q''))]
          exact hsorted_tail c (List.mem_cons_self c q'')
      | nil =>
          cases Δ with
          | nil => simp at hb
          | cons d Δ' =>
              have hbd : d = b := by simpa using hb
              rw [← hbd, hdl_new d (List.mem_cons_self d Δ')]
              exact Nat.le_succ_of_le (Nat.le_refl _)
    rcases (lookupP_append_isSome_iff m).mp hm with hold | hΔm
    · rw [hdl_old m hold]
      have := hbnd m hold
      omega
    · rw [hdl_new m hΔm]
      omega

theorem bfs_main (g0 : Graph) (s : Node) :
    ∀ (fuel : Nat) (g : Graph) (q : List Node) (dist : DistMap),
    BfsInv g0 s g q dist →
    q.length + 2 * ((s :: targetsOf g0).toFinset.card - dist.length) ≤ fuel →
    ∃ g' dist', bfsLoop fuel g q dist = (g', dist') ∧
      BfsInv g0 s g' [] dist' ∧
      (∀ n p, lookupP dist n = some p → lookupP dist' n = some p) := by
  intro fuel
  induction fuel with
  | zero =>
      intro g q dist hinv hfuel
      cases q with
      | nil => exact ⟨g, dist, rfl, hinv, fun _ _ h => h⟩
      | cons a q' => simp [List.length_cons] at hfuel
  | succ f ih =>
      intro g q dist hinv hfuel
      cases q with
      | nil => exact ⟨g, dist, rfl, hinv, fun _ _ h => h⟩
      | cons a q' =>
          have haSome : (lookupP dist a).isSome :=
            hinv.qsub a (List.mem_cons_self a q')
          obtain ⟨pa, hpa⟩ := Option.isSome_iff_exists.mp haSome
          have hns : (dGet g a).1 = findD g0 a :=
            (findD_dGet_fst g a).trans (hinv.gsame a)
          obtain ⟨Δ, heq, hnd, hmemΔ, hcov⟩ :=
            expandNbrs_spec a pa (dGet g a).1 dist [] hpa
          rw [hns] at hmemΔ hcov
          have hstep := bfs_step g0 s g a q' dist pa Δ hinv hpa hnd hmemΔ hcov
          have hloop : bfsLoop (f + 1) g (a :: q') dist
              = bfsLoop f (dGet g a).2 (q' ++ Δ)
                  (dist ++ Δ.map fun m => (m, PathV.cons pa m)) := by
            show bfsLoop f (dGet g a).2 (q' ++ (expandNbrs a (dGet g a).1 dist []).2)
                (expandNbrs a (dGet g a).1 dist []).1 = _
            rw [heq]
            rfl
          have hlen1 : (dist ++ Δ.map fun m => (m, PathV.cons pa m)).length
              = dist.length + Δ.length := by simp
          have hkeysub : ∀ n ∈ (dist ++ Δ.map fun m =>
              (m, PathV.cons pa m)).map Prod.fst, n ∈ s :: targetsOf g0 := by
            intro n hn
            exact hstep.ksub n ((lookupP_isSome_iff _ n).mpr hn)
          have hcard := keys_length_le hstep.knodup hkeysub
          rw [hlen1] at hcard
          have hfuel1 : (q' ++ Δ).length
              + 2 * ((s :: targetsOf g0).toFinset.card
                - (dist ++ Δ.map fun m => (m, PathV.cons pa m)).length) ≤ f := by
            rw [List.length_append, hlen1]
            rw [List.length_cons] at hfuel
            omega
          obtain ⟨g', dist', hrun, hinvF, hmonoF⟩ :=
            ih (dGet g a).2 (q' ++ Δ) (dist ++ Δ.map fun m => (m, PathV.cons pa m))
              hstep hfuel1
          refine ⟨g', dist', ?_, hinvF, ?_⟩
          · rw [hloop, hrun]
          · intro n p hp
            apply hmonoF
            rw [lookupP_append, hp, Option.or_some]

theorem bfs_init (g : Graph) (s : Node) :
    BfsInv g s g [s] [(s, PathV.single s)] := by
  have hlook : ∀ n, lookupP [(s, PathV.single s)] n
      = if s = n then some (PathV.single s) else none := fun n => rfl
  refine ⟨fun n => rfl, by simp, by simp [hlook], ?_, ?_, ?_, by simp, ?_, by simp, ?_⟩
  · intro n p hp
    rw [hlook] at hp
    by_cases hn : s = n
    · rw [if_pos hn] at hp
      obtain rfl := Option.some_inj.mp hp.symm
      subst hn
      exact ⟨rfl, rfl, List.chain'_singleton s⟩
    · rw [if_neg hn] at hp
      exact absurd hp (Option.noConfusion)
  · intro n hn
    rw [hlook] at hn
    by_cases hs : s = n
    · exact hs ▸ List.mem_cons_self s _
    · rw [if_neg hs] at hn
      simp at hn
  · intro a ha
    rcases List.mem_cons.mp ha with rfl | h
    · simp [hlook]
    · simp at h
  · intro n hn hq m _
    rw [hlook] at hn
    by_cases hs : s = n
    · exact absurd (hs ▸ List.mem_cons_self s []) hq
    · rw [if_neg hs] at hn
      simp at hn
  · intro a ha m hm
    have haa : s = a := by simpa using ha
    subst haa
    rw [hlook] at hm
    by_cases hs : s = m
    · subst hs
      exact Nat.le_succ_of_le (Nat.le_refl _)
    · rw [if_neg hs] at hm
      simp at hm

theorem shortest_path_run (g : Graph) (s t : Node) :
    ∃ g' dist',
      BfsInv g s g' [] dist' ∧ lookupP dist' s = some (PathV.single s) ∧
      shortest_path g s t = ((match lookupP dist' t with
        | some p => flattenPV p
        | none => []), g') := by
  have hfuel : ([s] : List Node).length
      + 2 * ((s :: targetsOf g).toFinset.card
        - ([(s, PathV.single s)] : DistMap).length) ≤ bfsFuel g s := by
    simp only [List.length_cons, List.length_nil, bfsFuel]
    omega
  obtain ⟨g', dist', hrun, hinv, hmono⟩ :=
    bfs_main g s (bfsFuel g s) g [s] [(s, PathV.single s)] (bfs_init g s) hfuel
  refine ⟨g', dist', hinv, hmono s (PathV.single s) (by simp [lookupP]), ?_⟩
  simp only [shortest_path, hrun]

theorem bfs_walk (g0 : Graph) (s : Node) (g' : Graph) (dist' : DistMap)
    (hinv : BfsInv g0 s g' [] dist') :
    ∀ (p : List Node) (a : Node) (k : Nat),
      (lookupP dist' a).isSome → dl dist' a ≤ k →
      List.Chain' (edgeOf g0) (a :: p) →
      ∀ t, (a :: p).getLast? = some t →
        (lookupP dist' t).isSome ∧ dl dist' t ≤ k + p.length := by
  intro p
  induction p with
  | nil =>
      intro a k ha hk _ t ht
      rw [List.getLast?_singleton] at ht
      obtain rfl := Option.some_inj.mp ht
      exact ⟨ha, by simpa using hk⟩
  | cons b p' ih =>
      intro a k ha hk hchain t ht
      have hedge : edgeOf g0 a b := (List.chain'_cons.mp hchain).1
      have hb := hinv.closure a ha (by simp) b hedge
      have ht' : (b :: p').getLast? = some t := by
        rw [List.getLast?_cons_cons] at ht
        exact ht
      have hrec := ih b (k + 1) hb.1 (le_trans hb.2 (by omega))
        (List.chain'_cons.mp hchain).2 t ht'
      refine ⟨hrec.1, ?_⟩
      have := hrec.2
      simp only [List.length_cons]
      omega

/-- C2: `shortest_path` is a breadth-first traversal from the start node
over the edges recorded in the graph at call time: when the target is not
reachable it returns the empty sequence, and when any path from start to
target exists over the recorded edges it returns a path (start first,
target last, consecutive recorded edges) of minimal edge count. -/
theorem shortest_path_bfs_correct (g : Graph) (s t : Node) :
    ((¬ ∃ p, isPathFT g s t p) → (shortest_path g s t).1 = []) ∧
    (∀ p, isPathFT g s t p →
        isPathFT g s t (shortest_path g s t).1 ∧
        (shortest_path g s t).1.length ≤ p.length) := by
  obtain ⟨g', dist', hinv, hs, heqn⟩ := shortest_path_run g s t
  constructor
  · intro hno
    cases hlt : lookupP dist' t with
    | none => rw [heqn]; simp [hlt]
    | some pt => exact absurd ⟨flattenPV pt, hinv.pvalid t pt hlt⟩ hno
  · intro p hp
    obtain ⟨hhead, hlast, hchain⟩ := hp
    have hpne : p ≠ [] := by
      intro h
      rw [h] at hhead
      exact absurd hhead (Option.noConfusion)
    obtain ⟨a, p', rfl⟩ := List.exists_cons_of_ne_nil hpne
    have has : a = s := by simpa using hhead
    subst has
    have hsSome : (lookupP dist' a).isSome := by rw [hs]; rfl
    have hds : dl dist' a = 1 := by rw [dl_eq_of_lookup hs]; rfl
    obtain ⟨htSome, htle⟩ :=
      bfs_walk g a g' dist' hinv p' a 1 hsSome (le_of_eq hds) hchain t hlast
    obtain ⟨pt, hpt⟩ := Option.isSome_iff_exists.mp htSome
    have hres : (shortest_path g a t).1 = flattenPV pt := by
      rw [heqn]
      simp [hpt]
    constructor
    · rw [hres]
      exact hinv.pvalid t pt hpt
    · rw [hres]
      have hlen : (flattenPV pt).length = dl dist' t := (dl_eq_of_lookup hpt).symm
      rw [hlen]
      simp only [List.length_cons]
      omega

theorem shortest_path_bfs_correct_witness :
    isPathFT [("s", ["t"])] "s" "t" ["s", "t"] ∧
      isPathFT [("s", ["t"])] "s" "t" (shortest_path [("s", ["t"])] "s" "t").1 ∧
      (shortest_path [("s", ["t"])] "s" "t").1.length ≤ 2 := by
  have hp : isPathFT [("s", ["t"])] "s" "t" ["s", "t"] := by
    refine ⟨rfl, by simp, List.chain'_cons.mpr ⟨?_, List.chain'_singleton _⟩⟩
    show ("t" : String) ∈ findD [("s", ["t"])] "s"
    simp [findD]
  exact ⟨hp, ((shortest_path_bfs_correct [("s", ["t"])] "s" "t").2 ["s", "t"] hp).1,
    ((shortest_path_bfs_correct [("s", ["t"])] "s" "t").2 ["s", "t"] hp).2⟩

/-- C10: when the start node equals the target node, `shortest_path`
returns the one-element path `[start]` for every state of the graph —
`dist` is seeded with `{start: [start]}`, which is never overwritten. -/
theorem shortest_path_start_eq_target (g : Graph) (s : Node) :
    (shortest_path g s s).1 = [s] := by
  obtain ⟨g', dist', hinv, hs, heqn⟩ := shortest_path_run g s s
  rw [heqn]
  simp [hs, flattenPV]

/-- C7 (amended): `shortest_path` never changes any recorded neighbour set
— `findD` answers exactly as before the call — but, being a `defaultdict`
read, `self._graph[at]` creates an empty entry for every node it visits
that has none, so the graph object itself is not left unchanged. -/
theorem shortest_path_preserves_edges (g : Graph) (s t n : Node) :
    findD (shortest_path g s t).2 n = findD g n := by
  obtain ⟨g', dist', hinv, hs, heqn⟩ := shortest_path_run g s t
  rw [heqn]
  exact hinv.gsame n

/-- C7 (counterexample): on the empty graph, reconstructing a path from
`"s"` creates the entry `("s", [])` — querying a node with no recorded
entry *does* create an entry for it, so the graph is mutated. -/
theorem shortest_path_creates_entry :
    hasKey ([] : Graph) "s" = false ∧
      (shortest_path [] "s" "t").2 = [("s", [])] ∧
      hasKey (shortest_path [] "s" "t").2 "s" = true :=
  ⟨rfl, rfl, rfl⟩
